import Mathlib

/-!
Verification of the core text-analysis engine of a Smarty template VS Code
extension.  The embedded components are:

* `tagScanner` — the global-regex tag tokenizer of `updateDecorations`
  (src/client/src/extension.ts, regex `({{?\*.*?\*}}?)|{{?[^}\n\s]([^{}]|{[^{}]*})*}}?`
  driven by a `while (match = re.exec(docText))` loop);
* `literalFilter` — the in-loop suppression of spans inside `{literal}` …
  `{/literal}` regions (the `prevRangeTxt` check of `updateDecorations`);
* `delimiterDetector` — the double-brace dialect probe of
  `setLanguageConfiguration` (regex `({{\*.*?\*}})|{{[^}\n\s]([^{}]|{[^{}]*})*}}`);
* `provideCompletionItems` — the relative-path completion resolver of
  src/client/src/language/completionItem.ts, with the `workspace.findFiles`
  call abstracted as an `Except`-returning environment parameter.

Documents are lists of characters; JavaScript regex semantics (leftmost
match, alternation order, greedy/lazy quantifiers with the backtracking
actually reachable for these patterns) are implemented directly.
-/

/-- JavaScript `\s` restricted to the ASCII whitespace characters
(the documents considered here are ASCII; the Unicode space classes of
JavaScript `\s` are not modelled). -/
def isJsSpace (c : Char) : Bool :=
  c = ' ' || c = '\t' || c = '\n' || c = '\r' || c = '\x0b' || c = '\x0c'

/-- Substring test, the embedding of JavaScript `String.prototype.includes`. -/
def containsSubstr (hay pat : List Char) : Bool :=
  (List.range (hay.length + 1)).any (fun i => List.isPrefixOf pat (hay.drop i))

/-! ### The tag-grammar regex of `updateDecorations`

Pattern: `({{?\*.*?\*}}?)|{{?[^}\n\s]([^{}]|{[^{}]*})*}}?` (global flag).
The first alternative is the comment form, the second the generic
directive form.  `matchComment`/`matchGeneric` return the length of the
match anchored at the head of the given suffix, or `none`. -/

/-- Matches `.*?\*\}\}?` at the head of the suffix that follows the opening
braces-and-star of the comment form: the lazy `.*?` stops at the first
`*}` (with `.` not crossing a newline); the trailing `}?` is greedy.
Returns the number of characters consumed. -/
def commentClose : List Char → Option Nat
  | [] => none
  | c :: rest =>
    if c = '*' ∧ rest.head? = some '}' then
      some (2 + (if rest.tail.head? = some '}' then 1 else 0))
    else if c = '\n' then none
    else (commentClose rest).map (· + 1)

/-- The comment alternative `\{\{?\*.*?\*\}\}?` anchored at the head.
The greedy `{?` needs no further backtracking: when two braces are
present the mandatory `*` fixes the parse. -/
def matchComment (l : List Char) : Option Nat :=
  match l with
  | [] => none
  | c :: rest =>
    if c = '{' then
      if rest.head? = some '{' ∧ rest.tail.head? = some '*' then
        (commentClose rest.tail.tail).map (3 + ·)
      else if rest.head? = some '*' then
        (commentClose rest.tail).map (2 + ·)
      else none
    else none

/-- One iteration `\{[^{}]*\}` of the nested-brace branch of the generic
form: consumes a brace group after its opening `{`, returning the number
of interior characters and the remaining suffix. -/
def braceGroup : List Char → Option (Nat × List Char)
  | [] => none
  | c :: rest =>
    if c = '}' then some (0, rest)
    else if c = '{' then none
    else (braceGroup rest).map (fun p => (p.1 + 1, p.2))

theorem braceGroup_length : ∀ (l : List Char) (k : Nat) (r : List Char),
    braceGroup l = some (k, r) → r.length < l.length := by
  intro l
  induction l with
  | nil => intro k r h; simp [braceGroup] at h
  | cons c rest ih =>
    intro k r h
    simp only [braceGroup] at h
    split at h
    · simp only [Option.some.injEq, Prod.mk.injEq] at h
      obtain ⟨-, hr⟩ := h
      subst hr
      simp
    · split at h
      · simp at h
      · simp only [Option.map_eq_some'] at h
        obtain ⟨⟨k', r'⟩, hbg, heq⟩ := h
        have := ih k' r' hbg
        simp only [Prod.mk.injEq] at heq
        obtain ⟨-, hr⟩ := heq
        subst hr
        simp only [List.length_cons]
        omega

/-- Fuelled implementation of the greedy star `([^{}]|{[^{}]*})*` of the
generic form.  For this pattern the star is effectively possessive:
releasing an iteration can never make the trailing `}` match, so no
backtracking into the star is modelled.  Each step consumes at least one
character, so fuel equal to the length of the suffix is always enough. -/
def genStarF : Nat → List Char → Nat
  | 0, _ => 0
  | _ + 1, [] => 0
  | fuel + 1, c :: rest =>
    if c = '}' then 0
    else if c = '{' then
      match braceGroup rest with
      | some (k, r) => (k + 2) + genStarF fuel r
      | none => 0
    else 1 + genStarF fuel rest

/-- Number of characters consumed by the greedy star
`([^{}]|{[^{}]*})*` of the generic form. -/
def genStar (l : List Char) : Nat :=
  genStarF l.length l

theorem genStarF_fuel : ∀ (f₁ : Nat), ∀ (f₂ : Nat) (l : List Char),
    l.length ≤ f₁ → l.length ≤ f₂ → genStarF f₁ l = genStarF f₂ l := by
  intro f₁
  induction f₁ with
  | zero =>
    intro f₂ l h1 _
    have : l = [] := List.eq_nil_of_length_eq_zero (Nat.le_zero.mp h1)
    subst this
    cases f₂ <;> rfl
  | succ f₁ ih =>
    intro f₂ l h1 h2
    cases l with
    | nil => cases f₂ <;> rfl
    | cons c rest =>
      cases f₂ with
      | zero => simp at h2
      | succ f₂ =>
        simp only [genStarF]
        split
        · rfl
        · split
          · cases hbg : braceGroup rest with
            | none => rfl
            | some p =>
              obtain ⟨k, r⟩ := p
              have hlen := braceGroup_length rest k r hbg
              simp only [List.length_cons] at h1 h2
              have := ih f₂ r (by omega) (by omega)
              show k + 2 + genStarF f₁ r = k + 2 + genStarF f₂ r
              rw [this]
          · simp only [List.length_cons] at h1 h2
            rw [ih f₂ rest (by omega) (by omega)]

theorem genStar_closing (rest : List Char) : genStar ('}' :: rest) = 0 := rfl

theorem genStar_plain (c : Char) (rest : List Char) (h1 : ¬ c = '}')
    (h2 : ¬ c = '{') : genStar (c :: rest) = 1 + genStar rest := by
  show genStarF (rest.length + 1) (c :: rest) = 1 + genStar rest
  simp only [genStarF, if_neg h1, if_neg h2]
  rfl

/-- Matches `[^}\n\s]([^{}]|{[^{}]*})*\}\}?` at the suffix following the
opening brace run of the generic form. -/
def genAfterBraces (t : List Char) : Option Nat :=
  match t with
  | [] => none
  | c :: rest =>
    if c = '}' ∨ c = '\n' ∨ isJsSpace c then none
    else if (rest.drop (genStar rest)).head? = some '}' then
      some (1 + genStar rest + 1
        + (if (rest.drop (genStar rest)).tail.head? = some '}' then 1 else 0))
    else none

/-- The generic alternative `\{\{?[^}\n\s]([^{}]|{[^{}]*})*\}\}?` anchored
at the head, including the backtracking of the greedy `{?`: with two
leading braces the engine first tries consuming both, and on failure
retries with the second `{` serving as the `[^}\n\s]` character. -/
def matchGeneric (l : List Char) : Option Nat :=
  match l with
  | [] => none
  | c :: rest =>
    if c = '{' then
      match rest with
      | [] => none
      | c2 :: rest2 =>
        if c2 = '{' then
          match genAfterBraces rest2 with
          | some n => some (2 + n)
          | none => (genAfterBraces rest).map (1 + ·)
        else (genAfterBraces rest).map (1 + ·)
    else none

/-- Full tag pattern anchored at the head of a suffix: the comment
alternative is tried before the generic one, as in the source regex. -/
def matchAt (l : List Char) : Option Nat :=
  match matchComment l with
  | some n => some n
  | none => matchGeneric l

/-- A matched tag span: `match.index`, `match.index + match[0].length` and
the matched text, exactly the data `updateDecorations` derives from each
`exec` result. -/
structure TagSpan where
  startOffset : Nat
  endOffset : Nat
  rawText : List Char
deriving DecidableEq, Repr

/-- Leftmost match at or after `pos`: the position scan of the JavaScript
regex engine.  Returns the match position and length. -/
def findFrom (text : List Char) : Nat → Nat → Option (Nat × Nat)
  | _, 0 => none
  | pos, fuel + 1 =>
    match matchAt (text.drop pos) with
    | some n => some (pos, n)
    | none => findFrom text (pos + 1) fuel

/-- The `while (match = smartyRegExp.exec(docText))` loop: each global
`exec` resumes at the end of the previous match. -/
def scanAux (text : List Char) : Nat → Nat → List TagSpan
  | _, 0 => []
  | pos, fuel + 1 =>
    match findFrom text pos (text.length + 1 - pos) with
    | none => []
    | some (i, n) =>
      ⟨i, i + n, (text.drop i).take n⟩ :: scanAux text (i + n) fuel

/-- TagScanner: the ordered sequence of tag spans of a document. -/
def tagScanner (text : List Char) : List TagSpan :=
  scanAux text 0 (text.length + 1)

/-! ### LiteralRegionFilter -/

/-- The opening literal marker checked by `updateDecorations`. -/
def openLiteralMarker : List Char := "{literal}".data

/-- The closing literal marker checked by `updateDecorations`. -/
def closeLiteralMarker : List Char := "{/literal}".data

/-- The in-loop filter of `updateDecorations`: a span is pushed when the
text of the previously pushed span does not contain `{literal}`, or the
current span's text contains `{/literal}`.  `prevTxt` is the raw text of
the last emitted span (`""` before any span is emitted). -/
def literalFilterGo (prevTxt : List Char) : List TagSpan → List TagSpan
  | [] => []
  | s :: rest =>
    if ¬ containsSubstr prevTxt openLiteralMarker = true
        ∨ containsSubstr s.rawText closeLiteralMarker = true then
      s :: literalFilterGo s.rawText rest
    else
      literalFilterGo prevTxt rest

/-- LiteralRegionFilter over a span sequence. -/
def literalFilter (spans : List TagSpan) : List TagSpan :=
  literalFilterGo [] spans

/-! ### DelimiterDetector

Pattern of `setLanguageConfiguration`:
`({{\*.*?\*}})|{{[^}\n\s]([^{}]|{[^{}]*})*}}` — both braces mandatory on
both sides; only existence of a match matters. -/

/-- Matches `.*?\*\}\}` (lazy, `.` not crossing a newline) at the head. -/
def commentCloseD : List Char → Option Nat
  | [] => none
  | c :: rest =>
    if c = '*' ∧ rest.head? = some '}' ∧ rest.tail.head? = some '}' then
      some 3
    else if c = '\n' then none
    else (commentCloseD rest).map (· + 1)

/-- The double-brace comment alternative `\{\{\*.*?\*\}\}`. -/
def matchCommentD (l : List Char) : Option Nat :=
  match l with
  | [] => none
  | c :: rest =>
    if c = '{' ∧ rest.head? = some '{' ∧ rest.tail.head? = some '*' then
      (commentCloseD rest.tail.tail).map (3 + ·)
    else none

/-- Matches `[^}\n\s]([^{}]|{[^{}]*})*\}\}` after the two opening braces. -/
def genAfterBracesD (t : List Char) : Option Nat :=
  match t with
  | [] => none
  | c :: rest =>
    if c = '}' ∨ c = '\n' ∨ isJsSpace c then none
    else if (rest.drop (genStar rest)).head? = some '}'
        ∧ (rest.drop (genStar rest)).tail.head? = some '}' then
      some (1 + genStar rest + 2)
    else none

/-- The double-brace generic alternative `\{\{[^}\n\s]([^{}]|{[^{}]*})*\}\}`. -/
def matchGenericD (l : List Char) : Option Nat :=
  match l with
  | [] => none
  | c :: rest =>
    if c = '{' ∧ rest.head? = some '{' then
      (genAfterBracesD rest.tail).map (2 + ·)
    else none

/-- Double-brace probe anchored at the head of a suffix. -/
def matchAtD (l : List Char) : Option Nat :=
  match matchCommentD l with
  | some n => some n
  | none => matchGenericD l

/-- The brace dialect of a document. -/
inductive DelimiterStyle where
  | Single
  | Double
deriving DecidableEq, Repr

/-- DelimiterDetector: `Double` exactly when
`doubleBraceRegExp.exec(docText)` finds a match anywhere. -/
def delimiterDetector (text : List Char) : DelimiterStyle :=
  if (List.range (text.length + 1)).any
      (fun i => (matchAtD (text.drop i)).isSome) then
    DelimiterStyle.Double
  else
    DelimiterStyle.Single

/-! ### Every match consumes at least one character -/

theorem matchComment_pos (l : List Char) (n : Nat)
    (h : matchComment l = some n) : 1 ≤ n := by
  cases l with
  | nil => simp [matchComment] at h
  | cons c rest =>
    simp only [matchComment] at h
    split at h
    · split at h
      · simp only [Option.map_eq_some'] at h
        obtain ⟨k, -, hk⟩ := h
        omega
      · split at h
        · simp only [Option.map_eq_some'] at h
          obtain ⟨k, -, hk⟩ := h
          omega
        · simp at h
    · simp at h

theorem matchGeneric_pos (l : List Char) (n : Nat)
    (h : matchGeneric l = some n) : 1 ≤ n := by
  cases l with
  | nil => simp [matchGeneric] at h
  | cons c rest =>
    simp only [matchGeneric] at h
    split at h
    · cases rest with
      | nil => simp at h
      | cons c2 rest2 =>
        simp only at h
        split at h
        · cases hg : genAfterBraces rest2 with
          | some m =>
            rw [hg] at h
            simp only [Option.some.injEq] at h
            omega
          | none =>
            rw [hg] at h
            simp only [Option.map_eq_some'] at h
            obtain ⟨k, -, hk⟩ := h
            omega
        · simp only [Option.map_eq_some'] at h
          obtain ⟨k, -, hk⟩ := h
          omega
    · simp at h

theorem matchAt_pos (l : List Char) (n : Nat)
    (h : matchAt l = some n) : 1 ≤ n := by
  unfold matchAt at h
  cases hc : matchComment l with
  | some m =>
    rw [hc] at h
    simp only [Option.some.injEq] at h
    exact h ▸ matchComment_pos l m hc
  | none =>
    rw [hc] at h
    exact matchGeneric_pos l n h

/-! ### Ordering of the scanned spans -/

theorem findFrom_spec (text : List Char) : ∀ (fuel pos i n : Nat),
    findFrom text pos fuel = some (i, n) →
    pos ≤ i ∧ matchAt (text.drop i) = some n := by
  intro fuel
  induction fuel with
  | zero => intro pos i n h; simp [findFrom] at h
  | succ fuel ih =>
    intro pos i n h
    simp only [findFrom] at h
    cases hm : matchAt (text.drop pos) with
    | some m =>
      rw [hm] at h
      simp only [Option.some.injEq, Prod.mk.injEq] at h
      obtain ⟨rfl, rfl⟩ := h
      exact ⟨Nat.le_refl _, hm⟩
    | none =>
      rw [hm] at h
      have := ih (pos + 1) i n h
      exact ⟨by omega, this.2⟩

theorem scanAux_ge (text : List Char) : ∀ (fuel pos : Nat) (s : TagSpan),
    s ∈ scanAux text pos fuel → pos ≤ s.startOffset := by
  intro fuel
  induction fuel with
  | zero => intro pos s h; simp [scanAux] at h
  | succ fuel ih =>
    intro pos s h
    simp only [scanAux] at h
    cases hf : findFrom text pos (text.length + 1 - pos) with
    | none => rw [hf] at h; simp at h
    | some p =>
      obtain ⟨i, n⟩ := p
      rw [hf] at h
      simp only [List.mem_cons] at h
      obtain rfl | h := h
      · exact (findFrom_spec text _ pos i n hf).1
      · have h1 := (findFrom_spec text _ pos i n hf).1
        have h2 := ih (i + n) s h
        simp only at h2
        omega

theorem scanAux_chain (text : List Char) : ∀ (fuel pos : Nat),
    List.Chain'
      (fun a b => a.endOffset ≤ b.startOffset ∧ a.startOffset < b.startOffset)
      (scanAux text pos fuel) := by
  intro fuel
  induction fuel with
  | zero => intro pos; simp [scanAux]
  | succ fuel ih =>
    intro pos
    simp only [scanAux]
    cases hf : findFrom text pos (text.length + 1 - pos) with
    | none => simp
    | some p =>
      obtain ⟨i, n⟩ := p
      rw [List.chain'_cons']
      constructor
      · intro b hb
        have hbmem : b ∈ scanAux text (i + n) fuel := List.mem_of_mem_head? hb
        have hge := scanAux_ge text fuel (i + n) b hbmem
        have hpos := matchAt_pos _ n (findFrom_spec text _ pos i n hf).2
        exact ⟨hge, by simp only []; omega⟩
      · exact ih (i + n)

/-- Claim C1: for every document text, the spans produced by a single
TagScanner pass are non-overlapping and strictly increasing in start
offset: for consecutive spans the end offset of the earlier one is at
most the start offset of the later one, and start offsets strictly
increase. -/
theorem tagScanner_spans_ordered (text : List Char) :
    List.Chain'
      (fun a b => a.endOffset ≤ b.startOffset ∧ a.startOffset < b.startOffset)
      (tagScanner text) :=
  scanAux_chain text (text.length + 1) 0

/-! ### The literal filter only removes spans -/

theorem literalFilterGo_sublist : ∀ (spans : List TagSpan) (prevTxt : List Char),
    List.Sublist (literalFilterGo prevTxt spans) spans := by
  intro spans
  induction spans with
  | nil => intro prev; simp [literalFilterGo]
  | cons s rest ih =>
    intro prev
    simp only [literalFilterGo]
    split
    · exact List.Sublist.cons₂ s (ih s.rawText)
    · exact List.Sublist.cons s (ih prev)

/-- Claim C9: for every document text, the span sequence emitted by
LiteralRegionFilter is a subsequence of the TagScanner output on the same
text — the filter only removes spans, never adds or reorders. -/
theorem literalFilter_sublist_tagScanner (text : List Char) :
    List.Sublist (literalFilter (tagScanner text)) (tagScanner text) :=
  literalFilterGo_sublist (tagScanner text) []

/-- Claim C10: whenever TagScanner finds at least one span, the literal
filter emits the first span, whatever its raw text is: the one-span
lookbehind compares against the previously emitted span, and none has
been emitted yet. -/
theorem literalFilter_emits_first (text : List Char) (s : TagSpan)
    (rest : List TagSpan) (h : tagScanner text = s :: rest) :
    ∃ out, literalFilter (tagScanner text) = s :: out := by
  rw [h]
  unfold literalFilter literalFilterGo
  rw [if_pos]
  · exact ⟨_, rfl⟩
  · left
    intro hcontra
    exact absurd hcontra (by decide)

/-- Witness for C10 at the concrete document `{a}`. -/
theorem literalFilter_emits_first_witness :
    ∃ out, literalFilter (tagScanner "{a}".data) = ⟨0, 3, "{a}".data⟩ :: out :=
  literalFilter_emits_first "{a}".data ⟨0, 3, "{a}".data⟩ [] (by decide)

/-- Claim C4: on the document `{literal}{foo}{/literal}` the scanner finds
the three tags, and the literal filter emits the spans for `{literal}`
and `{/literal}` but not the span for `{foo}`. -/
theorem literalFilter_literal_foo_example :
    tagScanner "{literal}{foo}{/literal}".data =
      [⟨0, 9, "{literal}".data⟩, ⟨9, 14, "{foo}".data⟩,
       ⟨14, 24, "{/literal}".data⟩]
    ∧ literalFilter (tagScanner "{literal}{foo}{/literal}".data) =
      [⟨0, 9, "{literal}".data⟩, ⟨14, 24, "{/literal}".data⟩] := by
  exact ⟨by decide, by decide⟩

/-! ### PathCompletionResolver (src/client/src/language/completionItem.ts)

The trigger regex is `(?<={include\s+|file=)['"]([^'"\s]+)$`, matched
against the text of the current line up to the cursor.  `workspace.findFiles`
— the sole external call — is abstracted as a parameter returning
`Except Unit (List (List Char))`: the (absolute, posix) fsPaths of the
`**/*.tpl` files found under the requested directory, or an enumeration
error.  Columns are character offsets from the line start, so the cursor
column is the length of the text before it. -/

/-- The `['"]` character class. -/
def isQuoteChar (c : Char) : Bool := c = '\'' || c = '"'

/-- The `[^'"\s]` character class of the captured fragment. -/
def fragChar (c : Char) : Bool := !(isQuoteChar c) && !(isJsSpace c)

/-- `pat` is a suffix of `l`. -/
def endsWithList (pat l : List Char) : Bool :=
  List.isPrefixOf pat.reverse l.reverse

/-- The lookbehind `(?<={include\s+|file=)` tested at the position right
after `before`.  Since `{include` ends in a non-space character, the
`\s+` alternatives collapse to: the maximal trailing space run is
non-empty and is immediately preceded by `{include`. -/
def lookbehindOk (before : List Char) : Bool :=
  endsWithList "file=".data before
    || (decide (1 ≤ (before.reverse.takeWhile isJsSpace).length)
        && endsWithList ('\x7b' :: "include".data)
            (before.take
              (before.length - (before.reverse.takeWhile isJsSpace).length)))

/-- Whether the trigger regex matches with the quote at index `i` of the
text before the cursor: lookbehind, a quote, then one or more fragment
characters reaching the cursor (the `$` anchor). -/
def triggerAt (tb : List Char) (i : Nat) : Bool :=
  isQuoteChar (tb.getD i ' ') && lookbehindOk (tb.take i)
    && !(tb.drop (i + 1)).isEmpty && (tb.drop (i + 1)).all fragChar

/-- Leftmost match of the trigger regex: returns `match.index` (the quote
position) and the captured fragment `m[1]`. -/
def findTrigger (tb : List Char) : Option (Nat × List Char) :=
  ((List.range tb.length).find? (triggerAt tb)).map
    (fun i => (i, tb.drop (i + 1)))

/-- Characters other than the path separator (the `[^\/]` class of the
`file.replace(/[^\/]+$/, '')` call). -/
def notSlash (c : Char) : Bool := if c = '/' then false else true

/-- Split on `/` (posix path segments). -/
def splitSlash (l : List Char) : List (List Char) :=
  l.foldr
    (fun c acc =>
      if c = '/' then [] :: acc
      else
        match acc with
        | h :: t => (c :: h) :: t
        | [] => [[c]])
    [[]]

/-- Normalised segment list of an absolute posix path: empty and `.`
segments are dropped, `..` pops (clamping at the root). -/
def absSegs (p : List Char) : List (List Char) :=
  (splitSlash p).foldl
    (fun acc seg =>
      if seg = [] ∨ seg = ['.'] then acc
      else if seg = ['.', '.'] then acc.dropLast
      else acc ++ [seg])
    []

/-- `path.posix.resolve` for an absolute base directory (the only case
reached here: the base is the directory of the document URI; resolution
against a process working directory is not modelled). -/
def posixResolve (a b : List Char) : List Char :=
  '/' :: List.intercalate ['/']
    (absSegs (if b.head? = some '/' then b else a ++ '/' :: b))

/-- Length of the common prefix of two segment lists. -/
def commonPrefixLen : List (List Char) → List (List Char) → Nat
  | a :: as, b :: bs => if a = b then 1 + commonPrefixLen as bs else 0
  | _, _ => 0

/-- `path.relative` (posix) for absolute `f` and `t`. -/
def posixRelative (f t : List Char) : List Char :=
  List.intercalate ['/']
    (List.replicate
        ((absSegs f).length - commonPrefixLen (absSegs f) (absSegs t))
        ['.', '.']
      ++ (absSegs t).drop (commonPrefixLen (absSegs f) (absSegs t)))

/-- `path.dirname` (posix): trailing slashes, then the basename, then the
separating slashes are stripped; degenerate cases give `.` or `/`. -/
def posixDirname (p : List Char) : List Char :=
  if p.reverse.dropWhile (fun c => c = '/') = [] then
    if p = [] then ['.'] else ['/']
  else if ((p.reverse.dropWhile (fun c => c = '/')).dropWhile
      (fun c => notSlash c)).dropWhile (fun c => c = '/') = [] then
    if (p.reverse.dropWhile (fun c => c = '/')).dropWhile
        (fun c => notSlash c) = [] then ['.'] else ['/']
  else
    (((p.reverse.dropWhile (fun c => c = '/')).dropWhile
        (fun c => notSlash c)).dropWhile (fun c => c = '/')).reverse

/-- Non-newline characters, the `.` of `/\/.+/`. -/
def notNewline (c : Char) : Bool := if c = '\n' then false else true

/-- `rel.replace(/\/.+/, '')`: the first `/` followed by at least one
non-newline character starts the (greedy, newline-bounded) removed
slice; everything kept before it plus the remainder from the first
newline on. -/
def drOf : List Char → List Char
  | [] => []
  | a :: rest =>
    if a = '/' ∧ rest.head? ≠ none ∧ rest.head? ≠ some '\n' then
      rest.dropWhile (fun c => notNewline c)
    else a :: drOf rest

/-- Kind of a completion candidate. -/
inductive CompletionKind where
  | File
  | Folder
deriving DecidableEq, Repr

/-- A completion candidate: label, kind, and the replacement range as
start/end character columns on the line. -/
structure CompletionItemM where
  label : List Char
  kind : CompletionKind
  replaceStart : Nat
  replaceEnd : Nat
deriving DecidableEq, Repr

/-- The `for (const f of subFiles)` loop: relative paths inside a nested
subdirectory yield one Folder candidate per distinct first segment
(tracked by `addedDirs`); bare filenames yield File candidates.  Every
candidate carries the same replacement range. -/
def buildItems (dir : List Char) (fillStart fillEnd : Nat) :
    List (List Char) → List CompletionItemM → List (List Char) →
    List CompletionItemM × List (List Char)
  | [], items, added => (items, added)
  | f :: rest, items, added =>
    if (posixRelative dir f).contains '/' then
      if added.contains (drOf (posixRelative dir f)) then
        buildItems dir fillStart fillEnd rest items added
      else
        buildItems dir fillStart fillEnd rest
          (items ++ [⟨drOf (posixRelative dir f) ++ ['/'],
            CompletionKind.Folder, fillStart, fillEnd⟩])
          (added ++ [drOf (posixRelative dir f)])
    else
      buildItems dir fillStart fillEnd rest
        (items ++ [⟨posixRelative dir f, CompletionKind.File,
          fillStart, fillEnd⟩])
        added

/-- `provideCompletionItems`: trigger match, explicit-relative check,
directory resolution, enumeration (which may fail — there is no catch in
the source), and the candidate-building loop.  `textBefore` is the line
text from the line start to the cursor. -/
def provideCompletionItems
    (findFiles : List Char → Except Unit (List (List Char)))
    (docUriPath : List Char) (textBefore : List Char) :
    Except Unit (List CompletionItemM) :=
  match findTrigger textBefore with
  | none => Except.ok []
  | some (idx, file) =>
    if List.isPrefixOf "./".data file then
      match findFiles (posixResolve (posixDirname docUriPath)
          (file.reverse.dropWhile notSlash).reverse) with
      | Except.error e => Except.error e
      | Except.ok subFiles =>
        Except.ok (buildItems
          (posixResolve (posixDirname docUriPath)
            (file.reverse.dropWhile notSlash).reverse)
          (idx + (file.reverse.dropWhile notSlash).reverse.length + 1)
          textBefore.length subFiles [] []).1
    else Except.ok []

/-! ### DelimiterDetector classification -/

theorem genAfterBracesD_foo (post : List Char) :
    genAfterBracesD ('f' :: 'o' :: 'o' :: '}' :: '}' :: post) = some 5 := by
  have hs : genStar ('o' :: 'o' :: '}' :: '}' :: post) = 2 := by
    rw [genStar_plain _ _ (by decide) (by decide),
      genStar_plain _ _ (by decide) (by decide), genStar_closing]
  simp [genAfterBracesD, hs, isJsSpace]

theorem matchAtD_foo (post : List Char) :
    matchAtD ('{' :: '{' :: 'f' :: 'o' :: 'o' :: '}' :: '}' :: post)
      = some 7 := by
  have h1 : matchCommentD
      ('{' :: '{' :: 'f' :: 'o' :: 'o' :: '}' :: '}' :: post) = none := by
    simp [matchCommentD]
  unfold matchAtD
  rw [h1]
  show matchGenericD ('{' :: '{' :: 'f' :: 'o' :: 'o' :: '}' :: '}' :: post)
      = some 7
  simp [matchGenericD, genAfterBracesD_foo]

/-- Claim C2: a document containing `{{foo}}` anywhere is classified as
Double (comment pair `{{* *}}`), and a document containing only the
single-brace tag `{foo}` is classified as Single (comment pair `{* *}`). -/
theorem delimiterDetector_classification :
    (∀ pre post : List Char,
      delimiterDetector (pre ++ "{{foo}}".data ++ post) = DelimiterStyle.Double)
    ∧ delimiterDetector "{foo}".data = DelimiterStyle.Single := by
  constructor
  · intro pre post
    unfold delimiterDetector
    rw [if_pos]
    refine List.any_eq_true.mpr ⟨pre.length, List.mem_range.mpr ?_, ?_⟩
    · simp only [List.length_append]
      omega
    · have hdrop : ((pre ++ "{{foo}}".data) ++ post).drop pre.length
          = "{{foo}}".data ++ post := by
        rw [List.append_assoc]
        exact List.drop_left pre _
      rw [hdrop,
        show "{{foo}}".data ++ post
            = '{' :: '{' :: 'f' :: 'o' :: 'o' :: '}' :: '}' :: post from rfl,
        matchAtD_foo]
      rfl
  · decide

/-! ### Resolver guard and error behaviour -/

/-- Claim C8: when the captured path fragment does not start with the
explicit-relative marker `./`, the resolver returns an empty candidate
list without error. -/
theorem resolver_nonrelative_empty
    (env : List Char → Except Unit (List (List Char)))
    (docp tb : List Char) (i : Nat) (f : List Char)
    (ht : findTrigger tb = some (i, f))
    (hnp : ¬ List.isPrefixOf "./".data f = true) :
    provideCompletionItems env docp tb = Except.ok [] := by
  unfold provideCompletionItems
  rw [ht]
  show (if List.isPrefixOf "./".data f then _ else Except.ok []) = Except.ok []
  rw [if_neg hnp]

/-- The line text `{include "` followed by a fragment: the concrete text
before the cursor used in the witnesses below. -/
def includeQuote (frag : List Char) : List Char :=
  '\x7b' :: "include ".data ++ '\x22' :: frag

/-- Witness for C8: fragment `bare.tpl` typed after `{include "`. -/
theorem resolver_nonrelative_empty_witness :
    findTrigger (includeQuote "bare.tpl".data) = some (9, "bare.tpl".data)
    ∧ provideCompletionItems (fun _ => Except.ok [])
        "/proj/page.tpl".data (includeQuote "bare.tpl".data) = Except.ok [] :=
  ⟨by decide,
    resolver_nonrelative_empty (fun _ => Except.ok []) "/proj/page.tpl".data
      (includeQuote "bare.tpl".data) 9 "bare.tpl".data (by decide) (by decide)⟩

/-- Counterexample to claim C3 as stated: with a failing filesystem
enumeration the resolver does not return an empty candidate list — the
error propagates, because the `await workspace.findFiles` call has no
surrounding catch. -/
theorem resolver_error_not_absorbed :
    provideCompletionItems (fun _ => Except.error ())
        "/proj/page.tpl".data (includeQuote "./x".data) = Except.error ()
    ∧ (Except.error () : Except Unit (List CompletionItemM))
        ≠ Except.ok [] := by
  refine ⟨by rfl, ?_⟩
  intro h
  exact Except.noConfusion h

/-- Amended C3: when the trigger matched and the fragment is explicitly
relative, a failing enumeration makes the whole resolver fail — the
error reaches the caller instead of being turned into an empty list. -/
theorem resolver_error_propagates
    (docp tb : List Char) (i : Nat) (f : List Char)
    (ht : findTrigger tb = some (i, f))
    (hp : List.isPrefixOf "./".data f = true) :
    provideCompletionItems (fun _ => Except.error ()) docp tb
      = Except.error () := by
  unfold provideCompletionItems
  rw [ht]
  show (if List.isPrefixOf "./".data f then _ else Except.ok [])
      = Except.error ()
  rw [if_pos hp]

/-- Witness for the amended C3 at a concrete query. -/
theorem resolver_error_propagates_witness :
    findTrigger (includeQuote "./x".data) = some (9, "./x".data)
    ∧ List.isPrefixOf "./".data "./x".data = true
    ∧ provideCompletionItems (fun _ => Except.error ())
        "/proj/page.tpl".data (includeQuote "./x".data) = Except.error () :=
  ⟨by decide, by decide,
    resolver_error_propagates "/proj/page.tpl".data (includeQuote "./x".data)
      9 "./x".data (by decide) (by decide)⟩

/-! ### Concrete resolver behaviour -/

/-- Claim C6: for a target directory (resolved from fragment `./inc/`)
containing `a.tpl` and `sub/b.tpl`, the resolver returns exactly one File
candidate `a.tpl` and one Folder candidate `sub/`; and when several
matched files share the first path segment, the Folder candidate is
emitted only once. -/
theorem resolver_folder_file_example :
    provideCompletionItems
        (fun _ => Except.ok ["/proj/inc/a.tpl".data, "/proj/inc/sub/b.tpl".data])
        "/proj/page.tpl".data (includeQuote "./inc/".data)
      = Except.ok
          [⟨"a.tpl".data, CompletionKind.File, 16, 16⟩,
           ⟨"sub/".data, CompletionKind.Folder, 16, 16⟩]
    ∧ provideCompletionItems
        (fun _ => Except.ok
          ["/proj/inc/sub/b.tpl".data, "/proj/inc/sub/c.tpl".data])
        "/proj/page.tpl".data (includeQuote "./inc/".data)
      = Except.ok [⟨"sub/".data, CompletionKind.Folder, 16, 16⟩] :=
  ⟨rfl, rfl⟩

/-! ### The replacement range of every candidate -/

theorem buildItems_mem_range (dir : List Char) (a b : Nat) :
    ∀ (fs : List (List Char)) (items : List CompletionItemM)
      (added : List (List Char)) (it : CompletionItemM),
    it ∈ (buildItems dir a b fs items added).1 →
    it ∈ items ∨ (it.replaceStart = a ∧ it.replaceEnd = b) := by
  intro fs
  induction fs with
  | nil =>
    intro items added it h
    exact Or.inl h
  | cons f rest ih =>
    intro items added it h
    simp only [buildItems] at h
    split at h
    · split at h
      · exact ih items added it h
      · rcases ih _ _ it h with hmem | hr
        · rcases List.mem_append.mp hmem with h1 | h2
          · exact Or.inl h1
          · simp only [List.mem_singleton] at h2
            subst h2
            exact Or.inr ⟨rfl, rfl⟩
        · exact Or.inr hr
    · rcases ih _ _ it h with hmem | hr
      · rcases List.mem_append.mp hmem with h1 | h2
        · exact Or.inl h1
        · simp only [List.mem_singleton] at h2
          subst h2
          exact Or.inr ⟨rfl, rfl⟩
      · exact Or.inr hr

theorem dropWhile_head_false (p : Char → Bool) :
    ∀ (l : List Char) (a : Char) (r : List Char),
    l.dropWhile p = a :: r → p a = false := by
  intro l
  induction l with
  | nil => intro a r h; simp [List.dropWhile] at h
  | cons c rest ih =>
    intro a r h
    rw [List.dropWhile_cons] at h
    split at h
    · exact ih a r h
    · rename_i hpc
      simp only [List.cons.injEq] at h
      obtain ⟨rfl, -⟩ := h
      simpa using hpc

theorem dropWhile_ne_nil_of_mem (p : Char → Bool) :
    ∀ (l : List Char) (a : Char), a ∈ l → p a = false →
    l.dropWhile p ≠ [] := by
  intro l
  induction l with
  | nil => intro a ha _; simp at ha
  | cons c rest ih =>
    intro a ha hpa
    rw [List.dropWhile_cons]
    split
    · rename_i hpc
      rcases List.mem_cons.mp ha with rfl | hmem
      · rw [hpa] at hpc; cases hpc
      · exact ih a hmem hpa
    · simp

theorem provideCompletionItems_ok_build
    (env : List Char → Except Unit (List (List Char)))
    (docp tb : List Char) (i : Nat) (f : List Char) (fs : List (List Char))
    (ht : findTrigger tb = some (i, f))
    (hp : List.isPrefixOf "./".data f = true)
    (hff : env (posixResolve (posixDirname docp)
        (f.reverse.dropWhile notSlash).reverse) = Except.ok fs) :
    provideCompletionItems env docp tb =
      Except.ok (buildItems
        (posixResolve (posixDirname docp)
          (f.reverse.dropWhile notSlash).reverse)
        (i + (f.reverse.dropWhile notSlash).reverse.length + 1)
        tb.length fs [] []).1 := by
  unfold provideCompletionItems
  rw [ht]
  show (if List.isPrefixOf "./".data f then _ else Except.ok []) = _
  rw [if_pos hp, hff]

theorem provideCompletionItems_error
    (env : List Char → Except Unit (List (List Char)))
    (docp tb : List Char) (i : Nat) (f : List Char) (e : Unit)
    (ht : findTrigger tb = some (i, f))
    (hp : List.isPrefixOf "./".data f = true)
    (hff : env (posixResolve (posixDirname docp)
        (f.reverse.dropWhile notSlash).reverse) = Except.error e) :
    provideCompletionItems env docp tb = Except.error e := by
  unfold provideCompletionItems
  rw [ht]
  show (if List.isPrefixOf "./".data f then _ else Except.ok [])
      = Except.error e
  rw [if_pos hp, hff]

/-- Claim C5: every candidate's replacement range starts at the character
right after the last path separator of the typed fragment and ends at
the cursor: the fragment splits as `pre ++ '/' :: seg` with `seg`
separator-free, the quote sits at column `i`, the fragment starts at
`i + 1`, and the range is `[i + 1 + pre.length + 1, cursor)`. -/
theorem resolver_range_covers_trailing_segment
    (env : List Char → Except Unit (List (List Char)))
    (docp tb : List Char) (i : Nat) (f : List Char)
    (items : List CompletionItemM) (it : CompletionItemM)
    (ht : findTrigger tb = some (i, f))
    (hres : provideCompletionItems env docp tb = Except.ok items)
    (hit : it ∈ items) :
    ∃ pre seg : List Char,
      f = pre ++ '/' :: seg ∧ (∀ c ∈ seg, c ≠ '/')
      ∧ it.replaceStart = i + 1 + pre.length + 1
      ∧ it.replaceEnd = tb.length := by
  by_cases hp : List.isPrefixOf "./".data f = true
  · cases hff : env (posixResolve (posixDirname docp)
        (f.reverse.dropWhile notSlash).reverse) with
    | error e =>
      rw [provideCompletionItems_error env docp tb i f e ht hp hff] at hres
      exact absurd hres (by simp)
    | ok fs =>
      rw [provideCompletionItems_ok_build env docp tb i f fs ht hp hff]
        at hres
      simp only [Except.ok.injEq] at hres
      subst hres
      rcases buildItems_mem_range _ _ _ fs [] [] it hit with hfalse | ⟨hs, he⟩
      · simp at hfalse
      · have hslash : '/' ∈ f := by
          obtain ⟨t, ht2⟩ := List.isPrefixOf_iff_prefix.mp hp
          rw [← ht2]
          simp
        have hmemrev : '/' ∈ f.reverse := List.mem_reverse.mpr hslash
        have hne : f.reverse.dropWhile notSlash ≠ [] :=
          dropWhile_ne_nil_of_mem notSlash f.reverse '/' hmemrev
            (by simp [notSlash])
        cases hD : f.reverse.dropWhile notSlash with
        | nil => exact absurd hD hne
        | cons a r =>
          have ha : notSlash a = false :=
            dropWhile_head_false notSlash f.reverse a r hD
          have ha' : a = '/' := by
            by_contra hcon
            simp [notSlash, hcon] at ha
          subst ha'
          refine ⟨r.reverse, (f.reverse.takeWhile notSlash).reverse,
            ?_, ?_, ?_, ?_⟩
          · have hdec : f = (f.reverse.dropWhile notSlash).reverse
                ++ (f.reverse.takeWhile notSlash).reverse := by
              conv_lhs => rw [← List.reverse_reverse f]
              rw [← List.reverse_append, List.takeWhile_append_dropWhile]
            conv_lhs => rw [hdec, hD]
            rw [List.reverse_cons, List.append_assoc]
            rfl
          · intro c hc
            have hc' : c ∈ f.reverse.takeWhile notSlash :=
              List.mem_reverse.mp hc
            have hmt := List.mem_takeWhile_imp hc'
            simpa [notSlash] using hmt
          · rw [hs, hD]
            simp only [List.reverse_cons, List.length_append,
              List.length_reverse, List.length_singleton]
            omega
          · exact he
  · rw [resolver_nonrelative_empty env docp tb i f ht hp] at hres
    simp only [Except.ok.injEq] at hres
    subst hres
    simp at hit

/-- Witness for C5: completing `./inc/` after `{include "` with one
matching file; the File candidate's range is the empty range at the
cursor (the trailing segment typed so far is empty). -/
theorem resolver_range_covers_trailing_segment_witness :
    ∃ pre seg : List Char,
      "./inc/".data = pre ++ '/' :: seg ∧ (∀ c ∈ seg, c ≠ '/')
      ∧ (⟨"a.tpl".data, CompletionKind.File, 16, 16⟩
          : CompletionItemM).replaceStart = 9 + 1 + pre.length + 1
      ∧ (⟨"a.tpl".data, CompletionKind.File, 16, 16⟩
          : CompletionItemM).replaceEnd = (includeQuote "./inc/".data).length :=
  resolver_range_covers_trailing_segment
    (fun _ => Except.ok ["/proj/inc/a.tpl".data])
    "/proj/page.tpl".data (includeQuote "./inc/".data) 9 "./inc/".data
    [⟨"a.tpl".data, CompletionKind.File, 16, 16⟩]
    ⟨"a.tpl".data, CompletionKind.File, 16, 16⟩
    (by decide) rfl (by decide)

/-! ### Distinctness of candidate labels -/

theorem contains_true_iff {α : Type _} [BEq α] [LawfulBEq α]
    (l : List α) (x : α) : l.contains x = true ↔ x ∈ l :=
  List.elem_iff

theorem provideCompletionItems_trigger_none
    (env : List Char → Except Unit (List (List Char)))
    (docp tb : List Char) (ht : findTrigger tb = none) :
    provideCompletionItems env docp tb = Except.ok [] := by
  unfold provideCompletionItems
  rw [ht]

theorem buildItems_nodup (dir : List Char) (a b : Nat) :
    ∀ (fs : List (List Char)) (items : List CompletionItemM)
      (added : List (List Char)),
    (items.map CompletionItemM.label).Nodup →
    (∀ it ∈ items, it.kind = CompletionKind.Folder →
      ∃ d ∈ added, it.label = d ++ ['/']) →
    (∀ it ∈ items, it.kind = CompletionKind.File →
      (∀ c ∈ it.label, c ≠ '/') ∧ it.label ∉ fs.map (posixRelative dir)) →
    (fs.map (posixRelative dir)).Nodup →
    (((buildItems dir a b fs items added).1.map CompletionItemM.label)).Nodup := by
  intro fs
  induction fs with
  | nil =>
    intro items added h1 _ _ _
    exact h1
  | cons f rest ih =>
    intro items added h1 h2 h3 hfs
    simp only [List.map_cons, List.nodup_cons] at hfs
    obtain ⟨hfhead, hftail⟩ := hfs
    simp only [buildItems]
    by_cases hsl : (posixRelative dir f).contains '/' = true
    · rw [if_pos hsl]
      by_cases hdr : added.contains (drOf (posixRelative dir f)) = true
      · rw [if_pos hdr]
        refine ih items added h1 h2 ?_ hftail
        intro it hmem hk
        obtain ⟨hc, hnot⟩ := h3 it hmem hk
        refine ⟨hc, fun hin => hnot ?_⟩
        simp only [List.map_cons, List.mem_cons]
        exact Or.inr hin
      · rw [if_neg hdr]
        refine ih _ _ ?_ ?_ ?_ hftail
        · rw [List.map_append]
          refine List.nodup_append.mpr
            ⟨h1, List.nodup_singleton _, ?_⟩
          intro x hx hx2
          simp only [List.map_cons, List.map_nil, List.mem_singleton] at hx2
          subst hx2
          obtain ⟨it, hitmem, hitlab⟩ := List.mem_map.mp hx
          cases hkind : it.kind with
          | Folder =>
            obtain ⟨d, hd, hl⟩ := h2 it hitmem hkind
            rw [hl] at hitlab
            have hde : d = drOf (posixRelative dir f) :=
              List.append_cancel_right hitlab
            subst hde
            exact hdr ((contains_true_iff added _).mpr hd)
          | File =>
            obtain ⟨hc, -⟩ := h3 it hitmem hkind
            have : '/' ∈ it.label := by
              rw [hitlab]
              exact List.mem_append_right _ (List.mem_singleton.mpr rfl)
            exact hc '/' this rfl
        · intro it hmem hk
          rcases List.mem_append.mp hmem with hin | hnew
          · obtain ⟨d, hd, hl⟩ := h2 it hin hk
            exact ⟨d, List.mem_append_left _ hd, hl⟩
          · simp only [List.mem_singleton] at hnew
            subst hnew
            exact ⟨drOf (posixRelative dir f),
              List.mem_append_right _ (List.mem_singleton.mpr rfl), rfl⟩
        · intro it hmem hk
          rcases List.mem_append.mp hmem with hin | hnew
          · obtain ⟨hc, hnot⟩ := h3 it hin hk
            refine ⟨hc, fun hin2 => hnot ?_⟩
            simp only [List.map_cons, List.mem_cons]
            exact Or.inr hin2
          · simp only [List.mem_singleton] at hnew
            subst hnew
            cases hk
    · rw [if_neg hsl]
      refine ih _ _ ?_ ?_ ?_ hftail
      · rw [List.map_append]
        refine List.nodup_append.mpr
          ⟨h1, List.nodup_singleton _, ?_⟩
        intro x hx hx2
        simp only [List.map_cons, List.map_nil, List.mem_singleton] at hx2
        subst hx2
        obtain ⟨it, hitmem, hitlab⟩ := List.mem_map.mp hx
        cases hkind : it.kind with
        | File =>
          obtain ⟨-, hnot⟩ := h3 it hitmem hkind
          refine hnot ?_
          simp only [List.map_cons, List.mem_cons]
          exact Or.inl hitlab
        | Folder =>
          obtain ⟨d, -, hl⟩ := h2 it hitmem hkind
          have hslin : '/' ∈ posixRelative dir f := by
            rw [← hitlab, hl]
            exact List.mem_append_right _ (List.mem_singleton.mpr rfl)
          exact hsl ((contains_true_iff _ _).mpr hslin)
      · intro it hmem hk
        rcases List.mem_append.mp hmem with hin | hnew
        · exact h2 it hin hk
        · simp only [List.mem_singleton] at hnew
          subst hnew
          cases hk
      · intro it hmem hk
        rcases List.mem_append.mp hmem with hin | hnew
        · obtain ⟨hc, hnot⟩ := h3 it hin hk
          refine ⟨hc, fun hin2 => hnot ?_⟩
          simp only [List.map_cons, List.mem_cons]
          exact Or.inr hin2
        · simp only [List.mem_singleton] at hnew
          subst hnew
          refine ⟨?_, ?_⟩
          · intro c hcmem hcs
            subst hcs
            exact hsl ((contains_true_iff _ _).mpr hcmem)
          · exact hfhead

/-- Claim C7: for every completion query the labels of the returned
candidates are pairwise distinct.  The enumeration environment is assumed
to return files with pairwise-distinct paths relative to the queried
directory, which is what a real filesystem enumeration guarantees. -/
theorem resolver_labels_nodup
    (env : List Char → Except Unit (List (List Char)))
    (docp tb : List Char) (items : List CompletionItemM)
    (henv : ∀ (d : List Char) (fs : List (List Char)),
      env d = Except.ok fs → (fs.map (posixRelative d)).Nodup)
    (hres : provideCompletionItems env docp tb = Except.ok items) :
    (items.map CompletionItemM.label).Nodup := by
  cases ht : findTrigger tb with
  | none =>
    rw [provideCompletionItems_trigger_none env docp tb ht] at hres
    simp only [Except.ok.injEq] at hres
    subst hres
    simp
  | some p =>
    obtain ⟨i, f⟩ := p
    by_cases hp : List.isPrefixOf "./".data f = true
    · cases hff : env (posixResolve (posixDirname docp)
          (f.reverse.dropWhile notSlash).reverse) with
      | error e =>
        rw [provideCompletionItems_error env docp tb i f e ht hp hff] at hres
        exact absurd hres (by simp)
      | ok fs =>
        rw [provideCompletionItems_ok_build env docp tb i f fs ht hp hff]
          at hres
        simp only [Except.ok.injEq] at hres
        subst hres
        exact buildItems_nodup _ _ _ fs [] [] (by simp) (by simp) (by simp)
          (henv _ fs hff)
    · rw [resolver_nonrelative_empty env docp tb i f ht hp] at hres
      simp only [Except.ok.injEq] at hres
      subst hres
      simp

/-- Witness for C7: the concrete directory of C6 yields the two distinct
labels `a.tpl` and `sub/`. -/
theorem resolver_labels_nodup_witness :
    (([⟨"a.tpl".data, CompletionKind.File, 16, 16⟩,
       ⟨"sub/".data, CompletionKind.Folder, 16, 16⟩]
        : List CompletionItemM).map CompletionItemM.label).Nodup :=
  resolver_labels_nodup
    (fun d => if d = "/proj/inc".data
      then Except.ok ["/proj/inc/a.tpl".data, "/proj/inc/sub/b.tpl".data]
      else Except.ok [])
    "/proj/page.tpl".data (includeQuote "./inc/".data)
    [⟨"a.tpl".data, CompletionKind.File, 16, 16⟩,
     ⟨"sub/".data, CompletionKind.Folder, 16, 16⟩]
    (by
      intro d fs h
      have h' : (if d = "/proj/inc".data
          then Except.ok ["/proj/inc/a.tpl".data, "/proj/inc/sub/b.tpl".data]
          else Except.ok ([] : List (List Char))) = Except.ok fs := h
      by_cases hd : d = "/proj/inc".data
      · subst hd
        rw [if_pos rfl] at h'
        simp only [Except.ok.injEq] at h'
        subst h'
        decide
      · rw [if_neg hd] at h'
        simp only [Except.ok.injEq] at h'
        subst h'
        simp)
    rfl
